import Mathlib

/- Verification development for the batch translation orchestration engine of
   the wasabi_epub repository.  The definitions below are shallow embeddings
   of the JavaScript sources (src/epubtest.js, src/unnamed/part_000,
   src/unnamed/part_001); the theorems settle the frozen claims about them. -/

namespace WasabiEpub

/-! Node wrapper wire format.  A batch response is parsed one node at a time
with the RegExp built in the batchQueue worker, written in the source as
new RegExp with pattern  <node id="ID">([\s\S]*?)</node>  and the i flag:
the first case-insensitive occurrence of the opening wrapper is located and
the capture runs up to the first following closing tag. -/

/-- Case insensitive character comparison, mirroring the i flag of the
JavaScript RegExp used to parse node wrappers. -/
def ciEq (a b : Char) : Bool := a.toLower = b.toLower

/-- Case insensitive test that pat occurs at the head of s. -/
def ciStarts : List Char → List Char → Bool
  | [], _ => true
  | _ :: _, [] => false
  | p :: ps, c :: cs => ciEq p c && ciStarts ps cs

/-- Suffix of s that follows the first case insensitive occurrence of pat,
or none when pat does not occur. -/
def dropToSub (pat : List Char) : List Char → Option (List Char)
  | [] => if pat.isEmpty then some [] else none
  | c :: cs =>
    if ciStarts pat (c :: cs) then some ((c :: cs).drop pat.length)
    else dropToSub pat cs

/-- Prefix of s that precedes the first case insensitive occurrence of pat,
or none when pat does not occur. -/
def takeToSub (pat : List Char) : List Char → Option (List Char)
  | [] => if pat.isEmpty then some [] else none
  | c :: cs =>
    if ciStarts pat (c :: cs) then some []
    else (takeToSub pat cs).map (fun pre => c :: pre)

/-- Model of rawResponse.match(nodeRegex) for one node id: the content
captured between the opening wrapper for this id and the first closing tag
after it, or none when the wrapper does not match in the response. -/
def parseNode (resp : String) (id : String) : Option String :=
  match dropToSub (("<node id=\"" ++ id ++ "\">").toList) resp.toList with
  | none => none
  | some rest =>
    match takeToSub ("</node>".toList) rest with
    | none => none
    | some cap => some (String.mk cap)

/-- TranslatableNode as pushed into nodesToTranslate: the ephemeral id
written into the data-t-id attribute and the extracted inner markup. -/
structure TNode where
  id : String
  content : String
  deriving DecidableEq, Repr

/-- Element of a chapter document as the dispatch code sees it: the optional
data-t-id attribute value and the inner markup. -/
structure Elem where
  tid : Option String
  inner : String
  deriving DecidableEq, Repr

/-- Model of the cheerio call chain selecting the element with the given
data-t-id attribute, writing new inner markup into it and removing the
attribute. -/
def applyReplace (doc : List Elem) (id txt : String) : List Elem :=
  doc.map (fun e => if e.tid = some id then ⟨none, txt⟩ else e)

/-- Model of the cheerio call chain that only removes the data-t-id
attribute of the element with the given id, leaving its content intact. -/
def removeAttrOnly (doc : List Elem) (id : String) : List Elem :=
  doc.map (fun e => if e.tid = some id then ⟨none, e.inner⟩ else e)

/-! Batcher.  The greedy packing loop appears verbatim in
processHtmlBatch (src/epubtest.js) and translateHtmlContent
(src/unnamed/part_000, src/unnamed/part_001); the budget constant
BATCH_SIZE_LIMIT is 5000 in the epubtest variants and 4000 in part_000,
so the limit is kept as a parameter. -/

/-- Cumulative content length of a batch. -/
def totalLen (b : List TNode) : Nat := (b.map (fun n => n.content.length)).sum

/-- Loop body of the batching pass: currentBatch and currentLength are the
loop variables of the source. -/
def makeBatchesGo (limit : Nat) : List TNode → List TNode → Nat → List (List TNode)
  | [], cur, _ => if cur.isEmpty then [] else [cur]
  | n :: rest, cur, curLen =>
    if curLen + n.content.length > limit ∧ cur ≠ [] then
      cur :: makeBatchesGo limit rest [n] n.content.length
    else
      makeBatchesGo limit rest (cur ++ [n]) (curLen + n.content.length)

/-- Greedy batching of a node list under a content length budget. -/
def makeBatches (limit : Nat) (nodes : List TNode) : List (List TNode) :=
  makeBatchesGo limit nodes [] 0

lemma makeBatchesGo_flatten (limit : Nat) :
    ∀ (nodes cur : List TNode) (curLen : Nat),
      (makeBatchesGo limit nodes cur curLen).flatten = cur ++ nodes := by
  intro nodes
  induction nodes with
  | nil =>
    intro cur _
    by_cases h : cur = [] <;> simp [makeBatchesGo, h]
  | cons n rest ih =>
    intro cur curLen
    simp only [makeBatchesGo]
    split
    · simp [ih]
    · simp [ih]

lemma makeBatchesGo_ne_nil (limit : Nat) :
    ∀ (nodes cur : List TNode) (curLen : Nat) (b : List TNode),
      b ∈ makeBatchesGo limit nodes cur curLen → b ≠ [] := by
  intro nodes
  induction nodes with
  | nil =>
    intro cur _ b hb
    by_cases h : cur = [] <;> simp [makeBatchesGo, h] at hb
    subst hb; exact h
  | cons n rest ih =>
    intro cur curLen b hb
    simp only [makeBatchesGo] at hb
    split at hb
    · rename_i hg
      rcases List.mem_cons.mp hb with rfl | hb
      · exact hg.2
      · exact ih _ _ b hb
    · exact ih _ _ b hb

lemma totalLen_append (a b : List TNode) :
    totalLen (a ++ b) = totalLen a + totalLen b := by
  simp [totalLen]

lemma makeBatchesGo_size (limit : Nat) :
    ∀ (nodes cur : List TNode) (curLen : Nat), curLen = totalLen cur →
      (totalLen cur ≤ limit ∨ cur.length ≤ 1) →
      ∀ b ∈ makeBatchesGo limit nodes cur curLen,
        totalLen b ≤ limit ∨ b.length ≤ 1 := by
  intro nodes
  induction nodes with
  | nil =>
    intro cur curLen hlen hc b hb
    by_cases h : cur = [] <;> simp [makeBatchesGo, h] at hb
    subst hb; exact hc
  | cons n rest ih =>
    intro cur curLen hlen hc b hb
    simp only [makeBatchesGo] at hb
    split at hb
    · rcases List.mem_cons.mp hb with rfl | hb
      · exact hc
      · refine ih [n] n.content.length (by simp [totalLen]) (Or.inr (by simp)) b hb
    · rename_i hguard
      rcases not_and_or.mp hguard with hle | hnil
      · push_neg at hle
        refine ih (cur ++ [n]) (curLen + n.content.length)
          (by simp [totalLen_append, totalLen, hlen]) (Or.inl ?_) b hb
        simpa [totalLen_append, totalLen, hlen] using hle
      · push_neg at hnil
        subst hnil
        refine ih [n] (curLen + n.content.length)
          (by simp [totalLen, hlen]) (Or.inr (by simp)) b (by simpa using hb)

/-- C2: for every node list and positive budget the Batcher output is an
ordered list of batches whose concatenation is the input (order preserved,
nothing dropped or duplicated), every batch is non-empty, and no batch
exceeds the budget unless it is a singleton whose single node alone exceeds
the budget. -/
theorem batcher_correct (limit : Nat) (nodes : List TNode) (hpos : 0 < limit) :
    (makeBatches limit nodes).flatten = nodes ∧
    (∀ b ∈ makeBatches limit nodes, b ≠ []) ∧
    (∀ b ∈ makeBatches limit nodes,
      totalLen b ≤ limit ∨ ∃ n, b = [n] ∧ limit < n.content.length) := by
  refine ⟨by simpa using makeBatchesGo_flatten limit nodes [] 0,
    fun b hb => makeBatchesGo_ne_nil limit nodes [] 0 b hb, fun b hb => ?_⟩
  have hsz := makeBatchesGo_size limit nodes [] 0 (by simp [totalLen])
    (Or.inl (by simp [totalLen])) b hb
  rcases hsz with hsz | hsz
  · exact Or.inl hsz
  · have hne := makeBatchesGo_ne_nil limit nodes [] 0 b hb
    match b, hsz, hne with
    | [n], _, _ =>
      by_cases hn : n.content.length ≤ limit
      · exact Or.inl (by simpa [totalLen] using hn)
      · exact Or.inr ⟨n, rfl, by omega⟩

/-- Witness for batcher_correct at a concrete input. -/
theorem batcher_correct_witness :
    (makeBatches 5000 [⟨"node_0", "abc"⟩]).flatten = [⟨"node_0", "abc"⟩] :=
  (batcher_correct 5000 [⟨"node_0", "abc"⟩] (by decide)).1

/-! Dispatch Queue.  Three variants of the batchQueue worker exist in the
sources.  The part_000 variant collects matches into matchedResults, counts
them, rejects the whole attempt when fewer than 80 percent of the batch ids
were recovered, and on success removes the marker of every batch node.  The
epubtest.js and part_001 variants apply each matched node directly, with no
recovery threshold.  A response oracle entry of none stands for a transport
error thrown by callAI; the glossary side effects of the part_000 worker
touch separate state and are modelled below with objAssign. -/

/-- Character class of String.prototype.trim in the engine, restricted to
the ASCII whitespace that occurs in the documents. -/
def isJsSpace (c : Char) : Bool :=
  c = ' ' || c = '\t' || c = '\n' || c = '\r' || c = '\x0b' || c = '\x0c'

/-- Model of the JavaScript trim() call: strip leading and trailing
whitespace. -/
def jsTrim (s : String) : String :=
  String.mk (((s.toList.dropWhile isJsSpace).reverse.dropWhile isJsSpace).reverse)

/-- Association list lookup, modelling JavaScript object and Map key access. -/
def assocLookup (k : String) : List (String × String) → Option String
  | [] => none
  | p :: rest => if p.1 = k then some p.2 else assocLookup k rest

/-- Model of the matchedResults map of the part_000 batchQueue worker: one
entry per batch node whose wrapper matched with a non empty capture (the
JavaScript truthiness test on match and match[1]); the stored value is the
trimmed capture, and the length of this list is nodesFoundCount. -/
def matched000 (r : String) (batch : List TNode) : List (String × String) :=
  batch.filterMap (fun n =>
    match parseNode r n.id with
    | some s => if s = "" then none else some (n.id, jsTrim s)
    | none => none)

/-- Per node application step of the part_000 worker after a validated
response: a recovered non empty replacement is written and the marker
removed; a missing or whitespace-only replacement (JavaScript-falsy
translatedText) only removes the marker, keeping the original content. -/
def applyStep000 (m : List (String × String)) (d : List Elem) (n : TNode) : List Elem :=
  match assocLookup n.id m with
  | some t => if t = "" then removeAttrOnly d n.id else applyReplace d n.id t
  | none => removeAttrOnly d n.id

/-- One attempt of the part_000 batchQueue worker on a raw response (none
stands for a transport error): parse all wrappers, throw before touching the
document when nodesFoundCount is below batch.length times 0.8 (rendered as
the exact integer comparison, which agrees with the JavaScript double
comparison in these ranges), otherwise apply every recovered replacement and
remove the marker of every batch node. -/
def batchAttemptValidated (doc : List Elem) (batch : List TNode)
    (resp : Option String) : List Elem × Bool :=
  match resp with
  | none => (doc, false)
  | some r =>
    let m := matched000 r batch
    if m.length * 5 < batch.length * 4 then (doc, false)
    else (batch.foldl (applyStep000 m) doc, true)

/-- One attempt of the epubtest.js and part_001 batchQueue workers: every
node whose wrapper matched with a non empty capture is written directly into
the document (content replaced, marker removed); unmatched nodes are left
untouched; there is no recovery threshold. -/
def plainStep (r : String) (d : List Elem) (n : TNode) : List Elem :=
  match parseNode r n.id with
  | some s => if s = "" then d else applyReplace d n.id (jsTrim s)
  | none => d

/-- One attempt of the epubtest.js and part_001 batchQueue workers, built
from plainStep; the attempt succeeds whenever the transport call did. -/
def batchAttemptPlain (doc : List Elem) (batch : List TNode)
    (resp : Option String) : List Elem × Bool :=
  match resp with
  | none => (doc, false)
  | some r => (batch.foldl (plainStep r) doc, true)

/-- Exhaustion handler of the part_000 worker: after the final failed
attempt the marker of every batch node is removed, keeping the original
content (pass-through). -/
def stripBatch (doc : List Elem) (batch : List TNode) : List Elem :=
  batch.foldl (fun d n => removeAttrOnly d n.id) doc

/-- Retry loop of the part_000 batchQueue worker with MAX_ATTEMPTS fuel:
each attempt consumes one oracle entry; a failed attempt retries while
attempts remain and otherwise strips the batch markers and reports failure. -/
def batchTaskValidated : Nat → List Elem → List TNode → List (Option String) →
    List Elem × List (Option String)
  | 0, doc, _, ora => (doc, ora)
  | rem + 1, doc, batch, ora =>
    let att := batchAttemptValidated doc batch (ora.head?.getD none)
    if att.2 then (att.1, ora.tail)
    else if rem = 0 then (stripBatch att.1 batch, ora.tail)
    else batchTaskValidated rem att.1 batch ora.tail

/-- Failed node collector of the retry rounds: every element still carrying
the data-t-id attribute, paired with its current inner markup. -/
def collectFailed (doc : List Elem) : List TNode :=
  doc.filterMap (fun e => e.tid.map (fun t => ⟨t, e.inner⟩))

/-- Concrete five node document used in counterexamples and witnesses. -/
def demoDoc : List Elem :=
  [⟨some "node_0", "a0"⟩, ⟨some "node_1", "a1"⟩, ⟨some "node_2", "a2"⟩,
   ⟨some "node_3", "a3"⟩, ⟨some "node_4", "a4"⟩]

/-- Concrete five node batch matching demoDoc. -/
def demoBatch : List TNode :=
  [⟨"node_0", "a0"⟩, ⟨"node_1", "a1"⟩, ⟨"node_2", "a2"⟩,
   ⟨"node_3", "a3"⟩, ⟨"node_4", "a4"⟩]

/-- Concrete response recovering only one of the five demo nodes. -/
def demoResp : String := "<node id=\"node_0\">X</node>"

/-- C1, counterexample for the epubtest.js variant of the dispatch task: the
batchQueue worker of src/epubtest.js (and src/unnamed/part_001) has no
recovery threshold.  On a response recovering 1 of 5 node ids (20 percent,
far below 0.8) it still applies the single recovered replacement (the
content of node_0 becomes X and its marker is removed) and reports the
attempt as a success, so no retry is triggered and a partial result was
applied, contradicting the claim for this variant. -/
theorem dispatch_validation_cex :
    (matched000 demoResp demoBatch).length = 1 ∧
    batchAttemptPlain demoDoc demoBatch (some demoResp)
      = ([⟨none, "X"⟩, ⟨some "node_1", "a1"⟩, ⟨some "node_2", "a2"⟩,
          ⟨some "node_3", "a3"⟩, ⟨some "node_4", "a4"⟩], true) := by
  exact ⟨by decide, by decide⟩

/-- C1 (amended to the part_000 variant, the one implementing the
validation policy): whenever the recovered node count is below 0.8 times
the batch size, the attempt applies no replacement and removes no marker
(the document is returned unchanged) and is reported as a failure, and the
task loop retries it while attempts remain. -/
theorem dispatch_validation (doc : List Elem) (batch : List TNode) (r : String)
    (rem : Nat) (ora : List (Option String))
    (h : (matched000 r batch).length * 5 < batch.length * 4) :
    batchAttemptValidated doc batch (some r) = (doc, false) ∧
    batchTaskValidated (rem + 2) doc batch (some r :: ora)
      = batchTaskValidated (rem + 1) doc batch ora := by
  have h1 : batchAttemptValidated doc batch (some r) = (doc, false) := by
    simp [batchAttemptValidated, h]
  refine ⟨h1, ?_⟩
  simp [batchTaskValidated, h1]

/-- Witness for dispatch_validation: the demo response recovers 1 of 5
nodes, the validated attempt leaves the document unchanged and fails. -/
theorem dispatch_validation_witness :
    batchAttemptValidated demoDoc demoBatch (some demoResp) = (demoDoc, false) :=
  (dispatch_validation demoDoc demoBatch demoResp 0 [] (by decide)).1

lemma applyReplace_clears (doc : List Elem) (id txt : String) :
    ∀ e ∈ applyReplace doc id txt, e.tid ≠ some id := by
  intro e he
  rcases List.mem_map.mp he with ⟨x, _, rfl⟩
  by_cases h : x.tid = some id <;> simp [h]

lemma removeAttrOnly_clears (doc : List Elem) (id : String) :
    ∀ e ∈ removeAttrOnly doc id, e.tid ≠ some id := by
  intro e he
  rcases List.mem_map.mp he with ⟨x, _, rfl⟩
  by_cases h : x.tid = some id <;> simp [h]

lemma applyReplace_keeps_clear (doc : List Elem) (id txt j : String)
    (h : ∀ e ∈ doc, e.tid ≠ some j) :
    ∀ e ∈ applyReplace doc id txt, e.tid ≠ some j := by
  intro e he
  rcases List.mem_map.mp he with ⟨x, hx, rfl⟩
  by_cases h2 : x.tid = some id
  · simp [h2]
  · simpa [h2] using h x hx

lemma removeAttrOnly_keeps_clear (doc : List Elem) (id j : String)
    (h : ∀ e ∈ doc, e.tid ≠ some j) :
    ∀ e ∈ removeAttrOnly doc id, e.tid ≠ some j := by
  intro e he
  rcases List.mem_map.mp he with ⟨x, hx, rfl⟩
  by_cases h2 : x.tid = some id
  · simp [h2]
  · simpa [h2] using h x hx

lemma applyStep000_clears (m : List (String × String)) (d : List Elem) (n : TNode) :
    ∀ e ∈ applyStep000 m d n, e.tid ≠ some n.id := by
  unfold applyStep000
  cases assocLookup n.id m with
  | none => exact removeAttrOnly_clears d n.id
  | some t =>
    by_cases ht : t = ""
    · simpa [ht] using removeAttrOnly_clears d n.id
    · simpa [ht] using applyReplace_clears d n.id t

lemma applyStep000_keeps_clear (m : List (String × String)) (d : List Elem)
    (n : TNode) (j : String) (h : ∀ e ∈ d, e.tid ≠ some j) :
    ∀ e ∈ applyStep000 m d n, e.tid ≠ some j := by
  unfold applyStep000
  cases assocLookup n.id m with
  | none => exact removeAttrOnly_keeps_clear d n.id j h
  | some t =>
    by_cases ht : t = ""
    · simpa [ht] using removeAttrOnly_keeps_clear d n.id j h
    · simpa [ht] using applyReplace_keeps_clear d n.id t j h

lemma foldl_keeps_clear (m : List (String × String)) (batch : List TNode)
    (j : String) : ∀ d : List Elem, (∀ e ∈ d, e.tid ≠ some j) →
      ∀ e ∈ batch.foldl (applyStep000 m) d, e.tid ≠ some j := by
  induction batch with
  | nil => intro d h e he; exact h e he
  | cons n rest ih =>
    intro d h e he
    exact ih (applyStep000 m d n) (applyStep000_keeps_clear m d n j h) e
      (by simpa using he)

lemma foldl_clears (m : List (String × String)) :
    ∀ (batch : List TNode) (d : List Elem) (n : TNode), n ∈ batch →
      ∀ e ∈ batch.foldl (applyStep000 m) d, e.tid ≠ some n.id := by
  intro batch
  induction batch with
  | nil => intro d n hn; cases hn
  | cons hd rest ih =>
    intro d n hn e he
    rcases List.mem_cons.mp hn with rfl | hn
    · exact foldl_keeps_clear m rest n.id (applyStep000 m d n)
        (applyStep000_clears m d n) e (by simpa using he)
    · exact ih (applyStep000 m d hd) n hn e (by simpa using he)

lemma applyStep000_untouched (m : List (String × String)) (d : List Elem)
    (n : TNode) (i : Nat) (e : Elem) (hi : d[i]? = some e)
    (hne : e.tid ≠ some n.id) :
    (applyStep000 m d n)[i]? = some e := by
  unfold applyStep000
  cases assocLookup n.id m with
  | none => simp [removeAttrOnly, List.getElem?_map, hi, hne]
  | some t =>
    by_cases ht : t = "" <;>
      simp [applyReplace, removeAttrOnly, List.getElem?_map, hi, hne, ht]

lemma applyStep000_unmatched (m : List (String × String)) (d : List Elem)
    (n : TNode) (i : Nat) (e : Elem)
    (hm : assocLookup n.id m = none ∨ assocLookup n.id m = some "")
    (hi : d[i]? = some e) (htid : e.tid = some n.id) :
    (applyStep000 m d n)[i]? = some ⟨none, e.inner⟩ := by
  unfold applyStep000
  rcases hm with hm | hm <;>
    simp [hm, removeAttrOnly, List.getElem?_map, hi, htid]

lemma foldl_none_stable (m : List (String × String)) :
    ∀ (batch : List TNode) (d : List Elem) (i : Nat) (s : String),
      d[i]? = some ⟨none, s⟩ →
      (batch.foldl (applyStep000 m) d)[i]? = some ⟨none, s⟩ := by
  intro batch
  induction batch with
  | nil => intro d i s hi; exact hi
  | cons n rest ih =>
    intro d i s hi
    have h1 : (applyStep000 m d n)[i]? = some ⟨none, s⟩ :=
      applyStep000_untouched m d n i ⟨none, s⟩ hi (by simp)
    simpa using ih (applyStep000 m d n) i s h1

lemma foldl_unmatched (m : List (String × String)) :
    ∀ (batch : List TNode) (d : List Elem) (n : TNode) (i : Nat) (e : Elem),
      (batch.map TNode.id).Nodup → n ∈ batch →
      (assocLookup n.id m = none ∨ assocLookup n.id m = some "") →
      d[i]? = some e → e.tid = some n.id →
      (batch.foldl (applyStep000 m) d)[i]? = some ⟨none, e.inner⟩ := by
  intro batch
  induction batch with
  | nil => intro d n i e _ hn; cases hn
  | cons hd rest ih =>
    intro d n i e hnd hn hm hi htid
    rcases List.mem_cons.mp hn with rfl | hn
    · have h1 : (applyStep000 m d n)[i]? = some ⟨none, e.inner⟩ :=
        applyStep000_unmatched m d n i e hm hi htid
      simpa using foldl_none_stable m rest (applyStep000 m d n) i e.inner h1
    · have hid : hd.id ≠ n.id := by
        have hnotin : hd.id ∉ rest.map TNode.id :=
          (List.nodup_cons.mp (by simpa using hnd)).1
        intro hcontra
        exact hnotin (hcontra ▸ List.mem_map_of_mem TNode.id hn)
      have hne : e.tid ≠ some hd.id := by
        rw [htid]
        intro hcc
        exact hid (Option.some.inj hcc).symm
      have h1 := applyStep000_untouched m d hd i e hi hne
      have hnd2 : (rest.map TNode.id).Nodup :=
        (List.nodup_cons.mp (by simpa using hnd)).2
      simpa using ih (applyStep000 m d hd) n i e hnd2 hn hm h1 htid

/-- C10: on a successful part_000 dispatch attempt (recovered node count at
or above the 0.8 threshold) the attempt succeeds and every batch node loses
its data-t-id marker; nodes whose lookup in matchedResults is missing or
JavaScript-falsy keep their original content with only the marker removed;
consequently the retry round collector, which selects elements still
carrying the marker, never picks up any node of this batch again. -/
theorem dispatch_success_strips (doc : List Elem) (batch : List TNode) (r : String)
    (hok : ¬ (matched000 r batch).length * 5 < batch.length * 4)
    (hnd : (batch.map TNode.id).Nodup) :
    (batchAttemptValidated doc batch (some r)).2 = true ∧
    (∀ n ∈ batch, ∀ e ∈ (batchAttemptValidated doc batch (some r)).1,
      e.tid ≠ some n.id) ∧
    (∀ n ∈ batch, ∀ i : Nat, ∀ e : Elem,
      (assocLookup n.id (matched000 r batch) = none ∨
        assocLookup n.id (matched000 r batch) = some "") →
      doc[i]? = some e → e.tid = some n.id →
      ((batchAttemptValidated doc batch (some r)).1)[i]? = some ⟨none, e.inner⟩) ∧
    (∀ n ∈ batch, ∀ f ∈ collectFailed (batchAttemptValidated doc batch (some r)).1,
      f.id ≠ n.id) := by
  have hres : batchAttemptValidated doc batch (some r)
      = (batch.foldl (applyStep000 (matched000 r batch)) doc, true) := by
    simp [batchAttemptValidated, hok]
  refine ⟨by rw [hres], ?_, ?_, ?_⟩
  · intro n hn e he
    rw [hres] at he
    exact foldl_clears (matched000 r batch) batch doc n hn e he
  · intro n hn i e hm hi htid
    rw [hres]
    exact foldl_unmatched (matched000 r batch) batch doc n i e hnd hn hm hi htid
  · intro n hn f hf
    rw [hres] at hf
    rcases List.mem_filterMap.mp hf with ⟨e, he, hmap⟩
    rcases Option.map_eq_some.mp hmap with ⟨t, ht, hft⟩
    subst hft
    intro hcontra
    exact foldl_clears (matched000 r batch) batch doc n hn e he
      (ht.trans (congrArg some hcontra))

/-- Witness for dispatch_success_strips: a one node batch fully recovered
by the demo response yields a successful attempt. -/
theorem dispatch_success_strips_witness :
    (batchAttemptValidated demoDoc [⟨"node_0", "a0"⟩] (some demoResp)).2 = true :=
  (dispatch_success_strips demoDoc [⟨"node_0", "a0"⟩] demoResp
    (by decide) (by decide)).1


/-! Fragment Extractor and the per chapter pipeline of translateHtmlContent
(src/unnamed/part_001 and the matching epubtest.js variant).  A chapter is
modelled as the ordered list of inner markups of the eligible block
elements (p, li, h1 to h6, caption, title) visited by the extractor; the
element at index i receives the ephemeral id node_i exactly when its
trimmed inner markup is non empty. -/

/-- Element of the tagged document produced for index i. -/
def tagMk (i : Nat) (s : String) : Elem :=
  ⟨if jsTrim s = "" then none else some ("node_" ++ toString i), s⟩

/-- Tagged document produced by the extraction pass, starting at index k. -/
def tagFrom : Nat → List String → List Elem
  | _, [] => []
  | k, s :: rest => tagMk k s :: tagFrom (k + 1) rest

/-- Tagged chapter document. -/
def tagElems (inners : List String) : List Elem := tagFrom 0 inners

/-- Node list produced by the extraction pass from index k on: one entry
per element with non empty trimmed inner markup, carrying the trimmed
markup as pushed into nodesToTranslate. -/
def extractFrom : Nat → List String → List TNode
  | _, [] => []
  | k, s :: rest =>
    if jsTrim s = "" then extractFrom (k + 1) rest
    else ⟨"node_" ++ toString k, jsTrim s⟩ :: extractFrom (k + 1) rest

/-- Extracted node list of a chapter. -/
def extractNodes (inners : List String) : List TNode := extractFrom 0 inners

/-- Retry loop of the epubtest.js and part_001 batchQueue workers with
MAX_ATTEMPTS fuel: only a transport error counts as a failure there, and
nothing is stripped on exhaustion. -/
def batchTaskPlain : Nat → List Elem → List TNode → List (Option String) →
    List Elem × List (Option String)
  | 0, doc, _, ora => (doc, ora)
  | rem + 1, doc, batch, ora =>
    let att := batchAttemptPlain doc batch (ora.head?.getD none)
    if att.2 then (att.1, ora.tail)
    else if rem = 0 then (att.1, ora.tail)
    else batchTaskPlain rem att.1 batch ora.tail

/-- processInBatches: batch the node list and run one queue task per batch;
every document mutation inside a task is synchronous, so the tasks compose
in order on the shared chapter document. -/
def runBatches (doc : List Elem) (batches : List (List TNode))
    (ora : List (Option String)) : List Elem × List (Option String) :=
  batches.foldl (fun st b => batchTaskPlain 3 st.1 b st.2) (doc, ora)

/-- Retry round loop of translateHtmlContent: collect the elements still
carrying a marker, rebatch and dispatch them again, for at most
MAX_RETRY_ROUNDS rounds. -/
def roundLoop : Nat → List Elem × List (Option String) →
    List Elem × List (Option String)
  | 0, st => st
  | f + 1, st =>
    if (collectFailed st.1).isEmpty then st
    else roundLoop f (runBatches st.1 (makeBatches 5000 (collectFailed st.1)) st.2)

/-- Final unconditional marker strip of translateHtmlContent. -/
def stripAll (doc : List Elem) : List Elem := doc.map (fun e => ⟨none, e.inner⟩)

/-- translateHtmlContent up to but excluding the final marker strip; the
early return on an empty node list appears here. -/
def translateHtmlCore (inners : List String) (ora : List (Option String)) :
    List Elem :=
  if (extractNodes inners).isEmpty then tagElems inners
  else (roundLoop 3 (runBatches (tagElems inners)
    (makeBatches 5000 (extractNodes inners)) ora)).1

/-- Whole per chapter translation step of src/unnamed/part_001 and the
matching epubtest.js variant: extraction, batching, queue dispatch, retry
rounds, final unconditional marker strip.  On the early return path no
marker was ever written, so composing with stripAll is faithful there
too. -/
def translateHtmlContent (inners : List String) (ora : List (Option String)) :
    List Elem :=
  stripAll (translateHtmlCore inners ora)

/-- Elements still carrying a marker are untouched: they agree with the
base document at their index (every mutation of the pipeline clears the
marker of the element it rewrites). -/
def Untouched (base d : List Elem) : Prop :=
  ∀ (i : Nat) (e : Elem), d[i]? = some e → e.tid ≠ none → base[i]? = some e

lemma untouched_map (base d : List Elem) (f : Elem → Elem)
    (hf : ∀ e, (f e).tid ≠ none → f e = e) (h : Untouched base d) :
    Untouched base (d.map f) := by
  intro i e hi hne
  rw [List.getElem?_map] at hi
  rcases Option.map_eq_some.mp hi with ⟨x, hx, hfx⟩
  have hfix := hf x (by rw [hfx]; exact hne)
  rw [hfix] at hfx
  subst hfx
  exact h i x hx hne

lemma untouched_applyReplace (base d : List Elem) (id txt : String)
    (h : Untouched base d) : Untouched base (applyReplace d id txt) :=
  untouched_map base d _
    (fun e => by by_cases hc : e.tid = some id <;> simp [hc]) h

lemma untouched_plainStep (base : List Elem) (r : String) (n : TNode) :
    ∀ d, Untouched base d → Untouched base (plainStep r d n) := by
  intro d h
  unfold plainStep
  cases parseNode r n.id with
  | none => exact h
  | some sres =>
    by_cases hs : sres = ""
    · simpa [hs] using h
    · simpa [hs] using untouched_applyReplace base d n.id (jsTrim sres) h

lemma untouched_foldl_plain (base : List Elem) (r : String) :
    ∀ (batch : List TNode) (d : List Elem), Untouched base d →
      Untouched base (batch.foldl (plainStep r) d) := by
  intro batch
  induction batch with
  | nil => intro d h; exact h
  | cons n rest ih =>
    intro d h
    simpa using ih (plainStep r d n) (untouched_plainStep base r n d h)

lemma untouched_attemptPlain (base : List Elem) (batch : List TNode)
    (resp : Option String) :
    ∀ d, Untouched base d → Untouched base (batchAttemptPlain d batch resp).1 := by
  cases resp with
  | none => intro d h; exact h
  | some r => intro d h; exact untouched_foldl_plain base r batch d h

lemma untouched_taskPlain (base : List Elem) (batch : List TNode) :
    ∀ (rem : Nat) (ora : List (Option String)) (d : List Elem),
      Untouched base d → Untouched base (batchTaskPlain rem d batch ora).1 := by
  intro rem
  induction rem with
  | zero => intro ora d h; exact h
  | succ rem ih =>
    intro ora d h
    simp only [batchTaskPlain]
    split
    · exact untouched_attemptPlain base batch _ d h
    · split
      · exact untouched_attemptPlain base batch _ d h
      · exact ih _ _ (untouched_attemptPlain base batch _ d h)

lemma untouched_runBatches (base : List Elem) :
    ∀ (batches : List (List TNode)) (d : List Elem) (ora : List (Option String)),
      Untouched base d → Untouched base (runBatches d batches ora).1 := by
  intro batches
  induction batches with
  | nil => intro d ora h; exact h
  | cons b rest ih =>
    intro d ora h
    have h1 := untouched_taskPlain base b 3 ora d h
    simpa [runBatches] using
      ih (batchTaskPlain 3 d b ora).1 (batchTaskPlain 3 d b ora).2 h1

lemma untouched_roundLoop (base : List Elem) :
    ∀ (fuel : Nat) (st : List Elem × List (Option String)),
      Untouched base st.1 → Untouched base (roundLoop fuel st).1 := by
  intro fuel
  induction fuel with
  | zero => intro st h; exact h
  | succ f ih =>
    intro st h
    simp only [roundLoop]
    split
    · exact h
    · exact ih _ (untouched_runBatches base _ st.1 st.2 h)

lemma tagFrom_getElem? : ∀ (l : List String) (k i : Nat),
    (tagFrom k l)[i]? = (l[i]?).map (fun s => tagMk (k + i) s) := by
  intro l
  induction l with
  | nil => intro k i; simp [tagFrom]
  | cons s rest ih =>
    intro k i
    cases i with
    | zero => simp [tagFrom]
    | succ j =>
      have h2 : k + 1 + j = k + (j + 1) := by omega
      simp only [tagFrom, List.getElem?_cons_succ]
      rw [ih (k + 1) j, h2]

/-- C3: after the per task attempts and the per chapter retry rounds are
exhausted, the returned chapter document carries zero data-t-id markers,
and every element whose marker survived to the final strip (exactly the
nodes never resolved by an applied replacement, since only a replacement
removes a marker in this variant) keeps content identical to its pre
translation content. -/
theorem translate_exhaustion (inners : List String) (ora : List (Option String)) :
    (∀ e ∈ translateHtmlContent inners ora, e.tid = none) ∧
    (∀ (i : Nat) (e : Elem), (translateHtmlCore inners ora)[i]? = some e →
      e.tid ≠ none →
      inners[i]? = some e.inner ∧
      (translateHtmlContent inners ora)[i]? = some ⟨none, e.inner⟩) := by
  constructor
  · intro e he
    rcases List.mem_map.mp he with ⟨x, _, rfl⟩
    rfl
  · intro i e hi hne
    have hu : Untouched (tagElems inners) (translateHtmlCore inners ora) := by
      unfold translateHtmlCore
      split
      · exact fun i e hi _ => hi
      · exact untouched_roundLoop _ 3 _
          (untouched_runBatches _ _ _ _ (fun i e hi _ => hi))
    have hbase := hu i e hi hne
    rw [tagElems, tagFrom_getElem?] at hbase
    rcases Option.map_eq_some.mp hbase with ⟨s, hs, hmk⟩
    have hinner : e.inner = s := by rw [← hmk]; rfl
    refine ⟨by rw [hs, hinner], ?_⟩
    unfold translateHtmlContent stripAll
    rw [List.getElem?_map, hi]
    simp

/-- Witness for translate_exhaustion: with an oracle providing no
responses, the single node of a one element chapter stays unresolved, its
marker survives to the strip and the final document keeps the original
content with the marker removed. -/
theorem translate_exhaustion_witness :
    (["a"] : List String)[0]? = some "a" ∧
    (translateHtmlContent ["a"] [])[0]? = some ⟨none, "a"⟩ :=
  (translate_exhaustion ["a"] []).2 0 ⟨some "node_0", "a"⟩ (by decide) (by decide)

lemma extractFrom_nil_of_blank : ∀ (l : List String) (k : Nat),
    (∀ s ∈ l, jsTrim s = "") → extractFrom k l = [] := by
  intro l
  induction l with
  | nil => intro k _; rfl
  | cons s rest ih =>
    intro k h
    simp only [extractFrom]
    rw [if_pos (h s (by simp))]
    exact ih (k + 1) (fun t ht => h t (by simp [ht]))

lemma tagFrom_blank : ∀ (l : List String) (k : Nat),
    (∀ s ∈ l, jsTrim s = "") → tagFrom k l = l.map (fun s => ⟨none, s⟩) := by
  intro l
  induction l with
  | nil => intro k _; rfl
  | cons s rest ih =>
    intro k h
    simp only [tagFrom, tagMk, List.map_cons]
    rw [if_pos (h s (by simp)), ih (k + 1) (fun t ht => h t (by simp [ht]))]

/-- C8: a chapter in which every eligible element has empty or whitespace
only inner markup yields zero translatable nodes, and the translation step
returns the chapter content unchanged. -/
theorem translate_empty_identity (inners : List String)
    (ora : List (Option String)) (h : ∀ s ∈ inners, jsTrim s = "") :
    extractNodes inners = [] ∧
    translateHtmlContent inners ora = inners.map (fun s => ⟨none, s⟩) := by
  have h1 : extractNodes inners = [] := extractFrom_nil_of_blank inners 0 h
  refine ⟨h1, ?_⟩
  unfold translateHtmlContent translateHtmlCore
  rw [h1]
  simp only [List.isEmpty_nil, if_pos]
  rw [tagElems, tagFrom_blank inners 0 h]
  simp [stripAll, List.map_map]

/-- Witness for translate_empty_identity: a chapter with one whitespace
only element and one empty element passes through unchanged. -/
theorem translate_empty_identity_witness :
    translateHtmlContent ["  ", ""] [] =
      [⟨none, "  "⟩, ⟨none, ""⟩] :=
  (translate_empty_identity ["  ", ""] [] (by decide)).2


/-! Global Consistency Pass, heading standardization.  The apply step of
standardizeHeadingFormats (src/unnamed/part_001 lines 591 to 606) reads the
trimmed text of each heading, looks it up in the corrections object with
the JavaScript fallback corrections[original] || original (a missing key or
an empty correction value leaves the heading alone) and writes the
corrected text back only when it differs from the trimmed original. -/

/-- Correction selected for a trimmed heading text: the looked up value,
falling back to the original when the key is missing or the value is
JavaScript-falsy. -/
def correctedOf (m : List (String × String)) (o : String) : String :=
  match assocLookup o m with
  | some v => if v = "" then o else v
  | none => o

/-- Apply the correction map to one heading: the element text is rewritten
to the corrected form exactly when it differs from the trimmed original. -/
def applyHeading (m : List (String × String)) (h : String) : String :=
  if jsTrim h ≠ correctedOf m (jsTrim h) then correctedOf m (jsTrim h) else h

/-- Apply the correction map to every heading of every chapter. -/
def applyCorrections (m : List (String × String)) (chs : List (List String)) :
    List (List String) :=
  chs.map (fun ch => ch.map (applyHeading m))

lemma assocLookup_mem : ∀ (m : List (String × String)) (k v : String),
    assocLookup k m = some v → (k, v) ∈ m := by
  intro m
  induction m with
  | nil => intro k v h; cases h
  | cons p rest ih =>
    intro k v h
    simp only [assocLookup] at h
    split at h
    · rename_i hp
      cases h
      exact List.mem_cons.mpr (Or.inl (by cases p; simp_all))
    · exact List.mem_cons.mpr (Or.inr (ih k v h))

lemma correctedOf_fix (m : List (String × String)) (w : String)
    (hw : assocLookup w m = none ∨ assocLookup w m = some w) :
    correctedOf m w = w := by
  rcases hw with hw | hw <;> simp [correctedOf, hw]

lemma applyHeading_fix (m : List (String × String)) (x : String)
    (hfix : correctedOf m (jsTrim x) = jsTrim x) :
    applyHeading m x = x := by
  simp [applyHeading, hfix]

lemma applyHeading_idem (m : List (String × String))
    (hm : ∀ p ∈ m, assocLookup (jsTrim p.2) m = none ∨
      assocLookup (jsTrim p.2) m = some (jsTrim p.2)) (h : String) :
    applyHeading m (applyHeading m h) = applyHeading m h := by
  by_cases hch : jsTrim h = correctedOf m (jsTrim h)
  · have hx : applyHeading m h = h := applyHeading_fix m h hch.symm
    rw [hx]
    exact hx
  · have hres : applyHeading m h = correctedOf m (jsTrim h) := by
      simp [applyHeading, hch]
    cases hl : assocLookup (jsTrim h) m with
    | none => exact absurd (by simp [correctedOf, hl] :
        correctedOf m (jsTrim h) = jsTrim h).symm hch
    | some v =>
      by_cases hv : v = ""
      · exact absurd (by simp [correctedOf, hl, hv] :
          correctedOf m (jsTrim h) = jsTrim h).symm hch
      · have hcv : correctedOf m (jsTrim h) = v := by simp [correctedOf, hl, hv]
        rw [hres, hcv]
        refine applyHeading_fix m v (correctedOf_fix m (jsTrim v) ?_)
        simpa using hm (jsTrim h, v) (assocLookup_mem m (jsTrim h) v hl)

lemma map_idem {α : Type} (f : α → α) (hf : ∀ a, f (f a) = f a) (l : List α) :
    (l.map f).map f = l.map f := by
  induction l with
  | nil => rfl
  | cons a l ih => simp [hf, ih]

/-- C4: when no corrected output text is itself a key mapping to a
different value, applying the heading correction map a second time to the
result of applying it once yields the same chapter contents. -/
theorem standardize_idempotent (m : List (String × String))
    (chs : List (List String))
    (hm : ∀ p ∈ m, assocLookup (jsTrim p.2) m = none ∨
      assocLookup (jsTrim p.2) m = some (jsTrim p.2)) :
    applyCorrections m (applyCorrections m chs) = applyCorrections m chs := by
  unfold applyCorrections
  exact map_idem _ (fun ch => map_idem _ (applyHeading_idem m hm) ch) chs

/-- Witness for standardize_idempotent on a two heading chapter and a one
entry correction map. -/
theorem standardize_idempotent_witness :
    applyCorrections [("Chapter  1", "Chapter 1")]
        (applyCorrections [("Chapter  1", "Chapter 1")]
          [["  Chapter  1 ", "Intro"]])
      = applyCorrections [("Chapter  1", "Chapter 1")]
          [["  Chapter  1 ", "Intro"]] :=
  standardize_idempotent _ _ (by decide)

/-! Smart anchor resolution.  getTitleById (src/epubtest.js lines 735 to
749) resolves a display title for a fragment id.  The cheerio navigation
results are captured per element: the direct text, the first nested
heading descendant as an optional selection (none when the selection is
empty, some of its raw text otherwise, mirroring the heading.length > 0
test of the source), the text of the first following sibling heading
(empty string when that selection is empty, as text() returns), and the
text of the closest ancestor heading. -/

/-- Navigation results for the element carrying a fragment id. -/
structure AnchorElem where
  directText : String
  nestedHeading : Option String
  siblingHeadingText : String
  ancestorHeadingText : String
  deriving DecidableEq, Repr

/-- Model of getTitleById; the none input stands for a missing fragment id
or an empty selection for it, where the source returns null. -/
def getTitleById : Option AnchorElem → Option String
  | none => none
  | some el =>
    let t1 := jsTrim el.directText
    let t2 := if t1 = "" then
        match el.nestedHeading with
        | some hd => jsTrim hd
        | none => jsTrim el.siblingHeadingText
      else t1
    some (if t2 = "" then jsTrim el.ancestorHeadingText else t2)

/-- Follows the wording of the spec for claim C5: try the four strategies
in order and return the first non empty result (direct text, nested
heading descendant text, following sibling heading text, closest ancestor
heading text). -/
def specResolveTitle : Option AnchorElem → Option String
  | none => none
  | some el =>
    some (([jsTrim el.directText, jsTrim (el.nestedHeading.getD ""),
      jsTrim el.siblingHeadingText,
      jsTrim el.ancestorHeadingText].filter (fun t => t ≠ "")).headD "")

/-- Demo anchor target: empty direct text, a nested heading that exists
but has empty text, a following sibling heading Origins, no ancestor
heading. -/
def demoAnchor : AnchorElem := ⟨"", some "", "Origins", ""⟩

/-- C5 counterexample: getTitleById selects strategy two by the existence
of a nested heading descendant, not by the non emptiness of its text.  On
demoAnchor the source returns the empty string (the nested heading exists
with empty text, so the sibling strategy is skipped and the ancestor
fallback is also empty), while the first non empty result in the claimed
order would be Origins from the sibling strategy. -/
theorem smart_anchor_cex :
    getTitleById (some demoAnchor) = some "" ∧
    specResolveTitle (some demoAnchor) = some "Origins" ∧
    ("" : String) ≠ "Origins" :=
  ⟨by decide, by decide, by decide⟩

/-- C5 (amended): the resolver tries the strategies in the claimed order,
except that strategy two is selected by the existence of a nested heading
descendant rather than by the non emptiness of its text: when the direct
text is empty and a nested heading exists, its text is returned when non
empty, and otherwise resolution skips the sibling strategy and falls
through to the ancestor strategy; when no nested heading exists the
sibling strategy applies, with the ancestor strategy as final fallback.
In particular an element with empty direct text but a nested heading with
non empty text resolves to the nested heading text, never to a sibling
heading. -/
theorem smart_anchor_order (el : AnchorElem) :
    (jsTrim el.directText ≠ "" →
      getTitleById (some el) = some (jsTrim el.directText)) ∧
    (∀ hd : String, jsTrim el.directText = "" → el.nestedHeading = some hd →
      jsTrim hd ≠ "" → getTitleById (some el) = some (jsTrim hd)) ∧
    (∀ hd : String, jsTrim el.directText = "" → el.nestedHeading = some hd →
      jsTrim hd = "" →
      getTitleById (some el) = some (jsTrim el.ancestorHeadingText)) ∧
    (jsTrim el.directText = "" → el.nestedHeading = none →
      jsTrim el.siblingHeadingText ≠ "" →
      getTitleById (some el) = some (jsTrim el.siblingHeadingText)) ∧
    (jsTrim el.directText = "" → el.nestedHeading = none →
      jsTrim el.siblingHeadingText = "" →
      getTitleById (some el) = some (jsTrim el.ancestorHeadingText)) := by
  refine ⟨?_, ?_, ?_, ?_, ?_⟩ <;> intros <;> simp_all [getTitleById]

/-- Witness for smart_anchor_order: empty direct text with a non empty
nested heading resolves to the nested heading text. -/
theorem smart_anchor_order_witness :
    getTitleById (some ⟨"", some "Nested", "Origins", "Anc"⟩) = some "Nested" :=
  (smart_anchor_order ⟨"", some "Nested", "Origins", "Anc"⟩).2.1 "Nested"
    (by decide) rfl (by decide)

/-! Transformation wrapper.  callAI (all variants) guards on empty or
whitespace only userContent before any provider client is touched. -/

/-- Model of callAI: the transform argument stands for the provider call
(generateContent or chat.completions.create) and a thrown ServiceError is
an error value of that capability; the Nat in the result counts provider
invocations. -/
def callAI (transform : String → String → Bool → Except Unit String)
    (userContent systemInstruction : String) (forceJsonMode : Bool) :
    Except Unit String × Nat :=
  if jsTrim userContent = "" then (Except.ok "", 0)
  else (transform userContent systemInstruction forceJsonMode, 1)

/-- C9: for every system instruction and mode flag, empty or whitespace
only userContent makes callAI return the empty string without invoking the
transformation service. -/
theorem callAI_empty_noop
    (transform : String → String → Bool → Except Unit String)
    (userContent systemInstruction : String) (forceJsonMode : Bool)
    (h : jsTrim userContent = "") :
    callAI transform userContent systemInstruction forceJsonMode
      = (Except.ok "", 0) := by
  simp [callAI, h]

/-- Witness for callAI_empty_noop on whitespace only content. -/
theorem callAI_empty_noop_witness :
    callAI (fun _ _ _ => Except.ok "x") "  " "sys" true = (Except.ok "", 0) :=
  callAI_empty_noop _ _ _ _ (by decide)


/-! Glossary Store.  RUNTIME_GLOSSARY (src/unnamed/part_000) is a plain
object guarded by glossaryMutex: a completed batch merges the reported new
terms with Object.assign inside runExclusive, and prompt snapshots are
taken inside the same critical section, so the store history is a
serialized sequence of whole merges and whole reads; atomicity of each
merge is therefore built into this operation level model.  A JavaScript
object is modelled as an insertion ordered association list: assigning an
existing key updates it in place, a new key is appended. -/

/-- One property assignment of Object.assign. -/
def upsertEntry (s : List (String × String)) (k v : String) :
    List (String × String) :=
  if s.any (fun p => p.1 = k) then
    s.map (fun p => if p.1 = k then (k, v) else p)
  else s ++ [(k, v)]

/-- Object.assign(RUNTIME_GLOSSARY, newTerms): fold the assignments of the
new entry set over the store. -/
def objAssign (s news : List (String × String)) : List (String × String) :=
  news.foldl (fun acc p => upsertEntry acc p.1 p.2) s

/-- First defined of two optional values: the lookup shape of a store
extended by an overriding layer. -/
def firstSome (a b : Option String) : Option String :=
  match a with
  | some v => some v
  | none => b

lemma firstSome_none_right (a : Option String) : firstSome a none = a := by
  cases a <;> rfl

lemma firstSome_assoc (a b c : Option String) :
    firstSome (firstSome a b) c = firstSome a (firstSome b c) := by
  cases a <;> rfl

lemma assocLookup_append (k : String) (a b : List (String × String)) :
    assocLookup k (a ++ b) = firstSome (assocLookup k a) (assocLookup k b) := by
  induction a with
  | nil => rfl
  | cons p rest ih =>
    simp only [List.cons_append, assocLookup]
    split
    · rfl
    · exact ih

lemma assocLookup_none_of_keys (k : String) :
    ∀ l : List (String × String), (∀ q ∈ l, q.1 ≠ k) →
      assocLookup k l = none := by
  intro l
  induction l with
  | nil => intro _; rfl
  | cons p rest ih =>
    intro h
    simp only [assocLookup]
    rw [if_neg (h p (by simp))]
    exact ih (fun q hq => h q (by simp [hq]))

lemma assocLookup_map_replace (k v : String) :
    ∀ s : List (String × String), s.any (fun p => p.1 = k) →
      assocLookup k (s.map (fun p => if p.1 = k then (k, v) else p))
        = some v := by
  intro s
  induction s with
  | nil => intro h; simp at h
  | cons p rest ih =>
    intro h
    by_cases hp : p.1 = k
    · simp [assocLookup, hp]
    · have h2 : rest.any (fun p => p.1 = k) := by
        rcases List.any_eq_true.mp h with ⟨q, hq, hqk⟩
        rcases List.mem_cons.mp hq with rfl | hq
        · exact absurd (of_decide_eq_true hqk) hp
        · exact List.any_eq_true.mpr ⟨q, hq, hqk⟩
      simp only [List.map_cons, if_neg hp, assocLookup]
      exact ih h2

lemma assocLookup_map_other (a b k : String) (hk : a ≠ k) :
    ∀ s : List (String × String),
      assocLookup k (s.map (fun p => if p.1 = a then (a, b) else p))
        = assocLookup k s := by
  intro s
  induction s with
  | nil => rfl
  | cons p rest ih =>
    by_cases hp : p.1 = a
    · simp only [List.map_cons, if_pos hp, assocLookup]
      rw [if_neg hk, if_neg (show ¬ p.1 = k by rw [hp]; exact hk)]
      exact ih
    · simp only [List.map_cons, if_neg hp, assocLookup]
      by_cases hpk : p.1 = k
      · rw [if_pos hpk, if_pos hpk]
      · rw [if_neg hpk, if_neg hpk]
        exact ih

lemma assocLookup_upsert (s : List (String × String)) (a b k : String) :
    assocLookup k (upsertEntry s a b)
      = firstSome (if a = k then some b else none) (assocLookup k s) := by
  by_cases hk : a = k
  · subst hk
    rw [if_pos rfl]
    show assocLookup a (upsertEntry s a b) = some b
    unfold upsertEntry
    split
    · exact assocLookup_map_replace a b s (by assumption)
    · rename_i hany
      rw [assocLookup_append,
        assocLookup_none_of_keys a s (fun q hq hqa =>
          hany (List.any_eq_true.mpr ⟨q, hq, by simp [hqa]⟩))]
      simp [assocLookup, firstSome]
  · rw [if_neg hk]
    show assocLookup k (upsertEntry s a b) = assocLookup k s
    unfold upsertEntry
    split
    · exact assocLookup_map_other a b k hk s
    · rw [assocLookup_append,
        (show assocLookup k [(a, b)] = none by simp [assocLookup, hk]),
        firstSome_none_right]

lemma assocLookup_objAssign :
    ∀ (news s : List (String × String)) (k : String),
      assocLookup k (objAssign s news)
        = firstSome (assocLookup k news.reverse) (assocLookup k s) := by
  intro news
  induction news with
  | nil => intro s k; rfl
  | cons p rest ih =>
    intro s k
    have h1 : objAssign s (p :: rest) = objAssign (upsertEntry s p.1 p.2) rest :=
      rfl
    have hsingle : assocLookup k [p] = if p.1 = k then some p.2 else none := by
      cases p
      rfl
    rw [h1, ih, assocLookup_upsert, List.reverse_cons, assocLookup_append,
      firstSome_assoc, hsingle]

/-- C6: two glossary merges whose new entry sets have disjoint key sets,
serialized in either order by the store mutex, produce the same final
store as a mapping, namely the union of the prior store overridden by both
entry sets; each merge is a single Object.assign inside the critical
section, so the serialized history only ever exposes the store between
whole merges. -/
theorem glossary_merge_comm (s a b : List (String × String))
    (hd : ∀ p ∈ a, ∀ q ∈ b, p.1 ≠ q.1) (k : String) :
    assocLookup k (objAssign (objAssign s a) b)
      = assocLookup k (objAssign (objAssign s b) a) ∧
    assocLookup k (objAssign (objAssign s a) b)
      = firstSome (assocLookup k b.reverse)
          (firstSome (assocLookup k a.reverse) (assocLookup k s)) := by
  have h1 : assocLookup k (objAssign (objAssign s a) b)
      = firstSome (assocLookup k b.reverse)
          (firstSome (assocLookup k a.reverse) (assocLookup k s)) := by
    rw [assocLookup_objAssign, assocLookup_objAssign]
  have h2 : assocLookup k (objAssign (objAssign s b) a)
      = firstSome (assocLookup k a.reverse)
          (firstSome (assocLookup k b.reverse) (assocLookup k s)) := by
    rw [assocLookup_objAssign, assocLookup_objAssign]
  have hswap : firstSome (assocLookup k b.reverse)
      (firstSome (assocLookup k a.reverse) (assocLookup k s))
      = firstSome (assocLookup k a.reverse)
          (firstSome (assocLookup k b.reverse) (assocLookup k s)) := by
    cases hA : assocLookup k a.reverse with
    | none => rfl
    | some v =>
      have hbnone : assocLookup k b.reverse = none := by
        apply assocLookup_none_of_keys
        intro q hq
        exact (hd (k, v) (List.mem_reverse.mp (assocLookup_mem _ _ _ hA)) q
          (List.mem_reverse.mp hq)).symm
      rw [hbnone]
      rfl
  exact ⟨h1.trans (hswap.trans h2.symm), h1⟩

/-- Witness for glossary_merge_comm: merging disjoint singleton entry
sets in either order gives the same lookup result. -/
theorem glossary_merge_comm_witness :
    assocLookup "Visa"
        (objAssign (objAssign [("Chaord", "x")] [("Visa", "v")])
          [("Rise", "r")])
      = assocLookup "Visa"
        (objAssign (objAssign [("Chaord", "x")] [("Rise", "r")])
          [("Visa", "v")]) :=
  (glossary_merge_comm [("Chaord", "x")] [("Visa", "v")] [("Rise", "r")]
    (by decide) "Visa").1


/-! Order Planner.  planTranslationOrder (src/epubtest.js and
src/unnamed/part_001) builds a Map from chapter id to chapter, filters the
proposed order down to ids present in the map, then maps over the filtered
list reading and deleting from the map, and appends the values remaining
in the map.  Because the filter completes before the map pass begins, an
id proposed twice passes the filter twice and its second Map.get returns
undefined, modelled as none. -/

/-- Chapter as the planner sees it. -/
structure Chapter where
  id : String
  title : String
  deriving DecidableEq, Repr

/-- Single Map.set of the chapter map construction: an existing key is
updated in place keeping its position, a new key is appended. -/
def mapInsert (m : List Chapter) (c : Chapter) : List Chapter :=
  if m.any (fun x => x.id = c.id) then
    m.map (fun x => if x.id = c.id then c else x)
  else m ++ [c]

/-- Construction new Map(chapters.map(c => [c.id, c])). -/
def chapterMapOf (chs : List Chapter) : List Chapter := chs.foldl mapInsert []

/-- Proposed order filtered to the ids present in the chapter map. -/
def planFiltered (chs : List Chapter) (order : List String) : List String :=
  order.filter (fun i => (chapterMapOf chs).any (fun c => c.id = i))

/-- Map and delete pass over the filtered order: for each id read the
chapter (undefined when a duplicate id already deleted it) and delete the
key. -/
def planGo : List String → List Chapter → List (Option Chapter) × List Chapter
  | [], rem => ([], rem)
  | i :: rest, rem =>
    ((rem.find? (fun c => c.id = i)) ::
        (planGo rest (rem.filter (fun c => ¬ c.id = i))).1,
      (planGo rest (rem.filter (fun c => ¬ c.id = i))).2)

/-- Output chapter sequence of the Order Planner on a parseable response:
the proposed and present entries first, then the chapters remaining in the
map in original insertion order. -/
def planSorted (chs : List Chapter) (order : List String) :
    List (Option Chapter) :=
  (planGo (planFiltered chs order) (chapterMapOf chs)).1
    ++ (planGo (planFiltered chs order) (chapterMapOf chs)).2.map some

/-- Demo chapter list for the planner. -/
def demoChapters : List Chapter := [⟨"a", "A"⟩, ⟨"b", "B"⟩]

/-- C7 counterexample: the proposed order is filtered against the full map
before the map and delete pass runs, so a parseable response proposing id
a twice produces an undefined entry in the output sequence, while the same
response without the duplicate does not: the output sequence is not a
chapter sequence containing each input chapter exactly once, and what the
output contains depends on the response. -/
theorem plan_order_cex :
    planSorted demoChapters ["a", "a"]
      = [some ⟨"a", "A"⟩, none, some ⟨"b", "B"⟩] ∧
    none ∈ planSorted demoChapters ["a", "a"] ∧
    none ∉ planSorted demoChapters ["a"] :=
  ⟨by decide, by decide, by decide⟩

lemma foldl_mapInsert :
    ∀ (chs acc : List Chapter),
      (∀ c ∈ chs, ∀ x ∈ acc, x.id ≠ c.id) →
      (chs.map Chapter.id).Nodup →
      chs.foldl mapInsert acc = acc ++ chs := by
  intro chs
  induction chs with
  | nil => intro acc _ _; simp
  | cons c rest ih =>
    intro acc hacc hnd
    have hno : acc.any (fun x => x.id = c.id) = false :=
      List.any_eq_false.mpr (fun x hx => by
        simpa using hacc c (by simp) x hx)
    simp only [List.foldl_cons, mapInsert, hno]
    rw [if_neg (by simp)]
    rw [ih (acc ++ [c]) ?_ (List.nodup_cons.mp (by simpa using hnd)).2]
    · simp
    · intro c2 hc2 x hx
      rcases List.mem_append.mp hx with hx | hx
      · exact hacc c2 (by simp [hc2]) x hx
      · have hxc : x = c := by simpa using hx
        subst hxc
        have hni : x.id ∉ rest.map Chapter.id :=
          (List.nodup_cons.mp (by simpa using hnd)).1
        intro heq
        exact hni (heq ▸ List.mem_map_of_mem Chapter.id hc2)

lemma chapterMapOf_eq_self (chs : List Chapter)
    (hnd : (chs.map Chapter.id).Nodup) : chapterMapOf chs = chs := by
  simpa using foldl_mapInsert chs [] (by simp) hnd

lemma find?_filter_ne (i j : String) (hne : i ≠ j) :
    ∀ l : List Chapter,
      (l.filter (fun c => ¬ c.id = j)).find? (fun c => c.id = i)
        = l.find? (fun c => c.id = i) := by
  intro l
  induction l with
  | nil => rfl
  | cons c rest ih =>
    by_cases hcj : c.id = j
    · have hci : ¬ (c.id = i) := by rw [hcj]; exact fun h => hne h.symm
      rw [List.filter_cons_of_neg (by simp [hcj]),
        List.find?_cons_of_neg _ (by simp [hci])]
      exact ih
    · rw [List.filter_cons_of_pos (by simp [hcj])]
      by_cases hci : c.id = i
      · rw [List.find?_cons_of_pos _ (by simp [hci]),
          List.find?_cons_of_pos _ (by simp [hci])]
      · rw [List.find?_cons_of_neg _ (by simp [hci]),
          List.find?_cons_of_neg _ (by simp [hci])]
        exact ih

lemma planGo_eq :
    ∀ (fil : List String) (rem : List Chapter), fil.Nodup →
      planGo fil rem
        = (fil.map (fun i => rem.find? (fun c => c.id = i)),
           rem.filter (fun c => ¬ c.id ∈ fil)) := by
  intro fil
  induction fil with
  | nil =>
    intro rem _
    simp [planGo]
  | cons i rest ih =>
    intro rem hnd
    have hni : i ∉ rest := (List.nodup_cons.mp hnd).1
    simp only [planGo]
    rw [ih _ (List.nodup_cons.mp hnd).2]
    refine Prod.ext ?_ ?_
    · show _ :: _ = _ :: _
      congr 1
      apply List.map_congr_left
      intro i2 hi2
      exact find?_filter_ne i2 i (fun h => hni (h ▸ hi2)) rem
    · show (rem.filter (fun c => ¬ c.id = i)).filter
          (fun c => ¬ c.id ∈ rest) = rem.filter (fun c => ¬ c.id ∈ i :: rest)
      rw [List.filter_filter]
      apply List.filter_congr
      intro a _
      by_cases h1 : a.id = i <;> by_cases h2 : a.id ∈ rest <;>
        simp [h1, h2]

lemma filter_eq_of_find? (i : String) :
    ∀ (l : List Chapter), (l.map Chapter.id).Nodup →
      ∀ c, l.find? (fun x => x.id = i) = some c →
        l.filter (fun x => x.id = i) = [c] := by
  intro l
  induction l with
  | nil => intro _ c h; cases h
  | cons d rest ih =>
    intro hnd c hf
    by_cases hd : d.id = i
    · rw [List.find?_cons_of_pos _ (by simp [hd])] at hf
      cases hf
      rw [List.filter_cons_of_pos (by simp [hd])]
      have hrest : rest.filter (fun x => x.id = i) = [] := by
        rw [List.filter_eq_nil_iff]
        intro x hx hxi
        have hni : d.id ∉ rest.map Chapter.id :=
          (List.nodup_cons.mp (by simpa using hnd)).1
        exact hni (by
          rw [hd, ← of_decide_eq_true hxi]
          exact List.mem_map_of_mem Chapter.id hx)
      rw [hrest]
    · rw [List.find?_cons_of_neg _ (by simp [hd])] at hf
      rw [List.filter_cons_of_neg (by simp [hd])]
      exact ih (List.nodup_cons.mp (by simpa using hnd)).2 c hf

lemma planGo_perm :
    ∀ (fil : List String) (rem : List Chapter), (rem.map Chapter.id).Nodup →
      ((planGo fil rem).1.filterMap (fun x => x)
        ++ (planGo fil rem).2).Perm rem := by
  intro fil
  induction fil with
  | nil => intro rem _; simp [planGo]
  | cons i rest ih =>
    intro rem hnd
    have hnd2 : ((rem.filter (fun c => ¬ c.id = i)).map Chapter.id).Nodup :=
      ((List.filter_sublist rem).map Chapter.id).nodup hnd
    simp only [planGo]
    cases hf : rem.find? (fun c => c.id = i) with
    | none =>
      have heq : rem.filter (fun c => ¬ c.id = i) = rem := by
        apply List.filter_eq_self.mpr
        intro a ha
        simpa using List.find?_eq_none.mp hf a ha
      rw [heq]
      simpa using ih rem hnd
    | some c =>
      have hperm := ih (rem.filter (fun c => ¬ c.id = i)) hnd2
      have hmain : (c :: rem.filter (fun c => ¬ c.id = i)).Perm rem := by
        have hsplit := List.filter_append_perm (fun x => decide (x.id = i)) rem
        rw [filter_eq_of_find? i rem hnd c hf] at hsplit
        have hco : rem.filter (fun a => !decide (a.id = i))
            = rem.filter (fun c => ¬ c.id = i) :=
          List.filter_congr (fun a _ => by simp [decide_not])
        rw [hco] at hsplit
        exact hsplit
      simp only [List.filterMap_cons, List.cons_append]
      exact ((hperm).cons c).trans hmain

/-- C7 (amended): with pairwise distinct input chapter ids, the multiset
of chapters appearing in the Order Planner output is exactly the input
chapter list for every parseable proposed order (defensive completeness);
when additionally no id is proposed twice, the output sequence is exactly
the proposed and present chapters in proposed order followed by the
missing chapters in original input order, with no undefined entry.  A
response proposing a present id twice, however, inserts an undefined entry
into the sequence, as the counterexample shows, so chapter membership is
response independent only up to such undefined entries. -/
theorem plan_order_complete (chs : List Chapter) (order : List String)
    (hnd : (chs.map Chapter.id).Nodup) :
    ((planSorted chs order).filterMap (fun x => x)).Perm chs ∧
    (order.Nodup →
      planSorted chs order
        = (planFiltered chs order).map
            (fun i => chs.find? (fun c => c.id = i))
          ++ (chs.filter (fun c => ¬ c.id ∈ order)).map some ∧
      none ∉ planSorted chs order) := by
  have hmap := chapterMapOf_eq_self chs hnd
  constructor
  · unfold planSorted
    rw [List.filterMap_append]
    have hsome : ((planGo (planFiltered chs order) (chapterMapOf chs)).2.map
        some).filterMap (fun x => x)
        = (planGo (planFiltered chs order) (chapterMapOf chs)).2 := by
      rw [List.filterMap_map]
      exact List.filterMap_some _
    rw [hsome]
    rw [hmap]
    exact planGo_perm (planFiltered chs order) chs hnd
  · intro hord
    have hfilnd : (planFiltered chs order).Nodup := hord.filter _
    have hgo := planGo_eq (planFiltered chs order) (chapterMapOf chs) hfilnd
    constructor
    · unfold planSorted
      rw [hgo, hmap]
      congr 1
      congr 1
      apply List.filter_congr
      intro a ha
      have hiff : (a.id ∈ planFiltered chs order) ↔ (a.id ∈ order) := by
        unfold planFiltered
        rw [List.mem_filter]
        constructor
        · exact fun h => h.1
        · intro h
          refine ⟨h, ?_⟩
          rw [hmap]
          exact List.any_eq_true.mpr ⟨a, ha, by simp⟩
      by_cases h1 : a.id ∈ order
      · simp [h1, hiff.mpr h1]
      · have h2 : a.id ∉ planFiltered chs order := fun hc => h1 (hiff.mp hc)
        simp [h1, h2]
    · unfold planSorted
      rw [hgo, hmap]
      intro hmem
      rcases List.mem_append.mp hmem with hmem | hmem
      · rcases List.mem_map.mp hmem with ⟨i, hi, hfind⟩
        have hany : chs.any (fun c => c.id = i) := by
          have := (List.mem_filter.mp hi).2
          rwa [hmap] at this
        rcases List.any_eq_true.mp hany with ⟨x, hx, hxi⟩
        exact List.find?_eq_none.mp hfind x hx hxi
      · rcases List.mem_map.mp hmem with ⟨c, _, hc⟩
        cases hc

/-- Witness for plan_order_complete: with distinct ids and a duplicate
free proposed order the output is the proposed chapter followed by the
missing one. -/
theorem plan_order_complete_witness :
    planSorted demoChapters ["b"]
      = [some ⟨"b", "B"⟩, some ⟨"a", "A"⟩] := by
  have h := (plan_order_complete demoChapters ["b"] (by decide)).2 (by decide)
  rw [h.1]
  decide


end WasabiEpub
